import Mathlib

set_option maxRecDepth 100000

/-!
Verification development for the gomavlib repository (MAVLink 1.0/2.0 codec,
dialect tables, node routing/signing, UDP listener multiplexer).

The `msg` codec and the node runtime are not part of the provided sources
(only their tests are), so those operations are modelled from the
specification (spec.md sections 4.1, 4.2 and 6) and validated below against
the concrete wire vectors of `src/msg/decencoder_test.go` and
`src/node_test.go`.  The dialect table construction
(`src/dialect/decencoder.go`) and the UDP listener
(`src/udplistener/udplistener.go`) are embedded directly from the source.

Machine integers are modelled as `Nat` with explicit `% 256` / `% 65536`
where the Go code truncates; field values are modelled by their little-endian
wire images (a Go `float32` value corresponds to the `Nat` whose 4 wire bytes
are its IEEE image, which is a bijection, so round-trip statements are
unaffected).
-/

namespace Gomav

/-- Primitive wire types of the dialect reflector (enums are already resolved
to their underlying primitive, as the reflector does with the `mavenum`
tag). -/
inductive Prim
  | u8 | i8 | c | u16 | i16 | u32 | i32 | f32 | u64 | i64 | f64
deriving DecidableEq

/-- Byte width of a primitive on the wire. -/
def Prim.width : Prim → Nat
  | .u8 => 1 | .i8 => 1 | .c => 1
  | .u16 => 2 | .i16 => 2
  | .u32 => 4 | .i32 => 4 | .f32 => 4
  | .u64 => 8 | .i64 => 8 | .f64 => 8

/-- Name of a primitive as it enters the CRC-extra seed. -/
def Prim.crcName : Prim → String
  | .u8 => "uint8_t" | .i8 => "int8_t" | .c => "char"
  | .u16 => "uint16_t" | .i16 => "int16_t"
  | .u32 => "uint32_t" | .i32 => "int32_t" | .f32 => "float"
  | .u64 => "uint64_t" | .i64 => "int64_t" | .f64 => "double"

/-- Declared type of a message field: scalar, fixed array, or a `char` array
used as a string with a declared `mavlen` length. -/
inductive FType
  | scalar (p : Prim)
  | array (p : Prim) (n : Nat)
  | str (n : Nat)
deriving DecidableEq

/-- Base primitive width used for the wire-order sort. -/
def FType.baseWidth : FType → Nat
  | .scalar p => p.width
  | .array p _ => p.width
  | .str _ => 1

/-- Number of payload bytes the field occupies on the wire. -/
def FType.wireLen : FType → Nat
  | .scalar p => p.width
  | .array p n => p.width * n
  | .str n => n

/-- Primitive name of the field for the CRC-extra seed (char arrays used as
strings hash as `char`). -/
def FType.crcPrim : FType → String
  | .scalar p => p.crcName
  | .array p _ => p.crcName
  | .str _ => "char"

/-- Trailing array-length byte of the field in the CRC-extra seed: present
exactly for arrays (including char-array strings). -/
def FType.crcLenByte : FType → List Nat
  | .scalar _ => []
  | .array _ n => [n % 256]
  | .str n => [n % 256]

/-- A field descriptor of a message plan: wire name (lower-snake, after the
`mavname` override), resolved type, and the `mavext` extension flag. -/
structure MsgField where
  name : String
  ftype : FType
  ext : Bool
deriving DecidableEq

/-- A message declaration: CRC name (UPPER_SNAKE), message id, and field
descriptors in declaration order. -/
structure Msg where
  name : String
  id : Nat
  fields : List MsgField
deriving DecidableEq

/-- Value of one field: the scalar's little-endian integer image, the list of
element images for an array, or the raw bytes of a string. -/
inductive FieldVal
  | scalar (v : Nat)
  | arr (vs : List Nat)
  | str (bs : List Nat)
deriving DecidableEq

/-- Little-endian byte image of `v` on `w` bytes. -/
def uleBytes : Nat → Nat → List Nat
  | 0, _ => []
  | w + 1, v => v % 256 :: uleBytes w (v / 256)

/-- Value of a little-endian byte image. -/
def uleVal : List Nat → Nat
  | [] => 0
  | b :: bs => b + 256 * uleVal bs

/-- Modelled from the spec: serialize one field little-endian; char
arrays/strings zero-pad to the declared length; arrays of enums use the
underlying primitive (spec section 4.2 Encode).  A kind mismatch between the
declared type and the value yields no bytes. -/
def encodeField : FType → FieldVal → List Nat
  | .scalar p, .scalar v => uleBytes p.width v
  | .array p _, .arr vs => (vs.map (uleBytes p.width)).flatten
  | .str n, .str bs => bs ++ List.replicate (n - bs.length) 0
  | _, _ => []

/-- Decode `k` array elements of width `w` from a byte list. -/
def decodeArr (w : Nat) : Nat → List Nat → List Nat
  | 0, _ => []
  | k + 1, bs => uleVal (bs.take w) :: decodeArr w k (bs.drop w)

/-- Modelled from the spec: deserialize one field from its wire bytes (spec
section 4.2 Decode); a string field stops at the first zero byte, matching
the decoded test vectors in src/msg/decencoder_test.go. -/
def decodeField : FType → List Nat → FieldVal
  | .scalar _, bs => .scalar (uleVal bs)
  | .array p n, bs => .arr (decodeArr p.width n bs)
  | .str _, bs => .str (bs.takeWhile (fun b => b != 0))

/-- Concatenated serialization of fields paired with their values. -/
def encodePairs (ps : List (MsgField × FieldVal)) : List Nat :=
  (ps.map (fun p => encodeField p.1.ftype p.2)).flatten

/-- Sequential deserialization: each field consumes its wire length, i.e.
every field is read at its wire offset. -/
def decodePairs : List MsgField → List Nat → List (MsgField × FieldVal)
  | [], _ => []
  | f :: fs, bs =>
    (f, decodeField f.ftype (bs.take f.ftype.wireLen)) :: decodePairs fs (bs.drop f.ftype.wireLen)

/-- Sort bucket of a field: extensions last (bucket 4), otherwise by
primitive base width 8 > 4 > 2 > 1 (buckets 0..3). -/
def MsgField.bucket (f : MsgField) : Nat :=
  if f.ext then 4
  else
    match f.ftype.baseWidth with
    | 8 => 0
    | 4 => 1
    | 2 => 2
    | _ => 3

/-- Stable bucket sort by a 5-valued key: concatenating the key-homogeneous
sublists preserves relative order inside each bucket, which is exactly the
stable sort by primitive byte width descending of spec section 4.1 step 2. -/
def bsort {α : Type} (key : α → Nat) (l : List α) : List α :=
  l.filter (fun x => key x == 0) ++ l.filter (fun x => key x == 1) ++
    l.filter (fun x => key x == 2) ++ l.filter (fun x => key x == 3) ++
    l.filter (fun x => key x == 4)

/-- The plan's wire order of field descriptors. -/
def wireFields (fs : List MsgField) : List MsgField :=
  bsort MsgField.bucket fs

/-- The wire order of fields paired with their values. -/
def wSort (ps : List (MsgField × FieldVal)) : List (MsgField × FieldVal) :=
  bsort (fun p => p.1.bucket) ps

/-- A non-extension field. -/
def isCore (f : MsgField) : Bool := !f.ext

def coreFields (fs : List MsgField) : List MsgField := fs.filter isCore

/-- Payload size including extension fields. -/
def fullSize (fs : List MsgField) : Nat := (fs.map (fun f => f.ftype.wireLen)).sum

/-- Payload size excluding extension fields. -/
def coreSize (fs : List MsgField) : Nat := fullSize (coreFields fs)

/-- Remove trailing zero bytes. -/
def dropTrailingZeros (l : List Nat) : List Nat :=
  (l.reverse.dropWhile (fun b => b == 0)).reverse

/-- Modelled from the spec: v2 empty-byte truncation, never below one byte
(spec section 4.2 Encode). -/
def truncV2 (l : List Nat) : List Nat :=
  if dropTrailingZeros l = [] then [0] else dropTrailingZeros l

/-- Zero-extend a payload to `n` bytes (no-op when already at least `n`). -/
def zeroExtend (n : Nat) (l : List Nat) : List Nat :=
  l ++ List.replicate (n - l.length) 0

/-- Zero value of a field, as Go leaves struct fields that the wire does not
carry (v1 extension fields). -/
def FType.defVal : FType → FieldVal
  | .scalar _ => .scalar 0
  | .array _ n => .arr (List.replicate n 0)
  | .str _ => .str []

/-- Remove the first element satisfying `p`, returning it and the rest. -/
def extractFirst {α : Type} (p : α → Bool) : List α → Option (α × List α)
  | [] => none
  | x :: xs =>
    if p x then some (x, xs)
    else
      match extractFirst p xs with
      | some (y, ys) => some (y, x :: ys)
      | none => none

/-- Reassemble declaration-order values from wire-order values: the wire
order concatenates the bucket-homogeneous runs, each preserving declaration
order, so each declaration field takes the first not-yet-consumed wire value
of its bucket; a field with no wire value (an extension field under v1)
keeps its zero value. -/
def unsort : List MsgField → List (MsgField × FieldVal) → List (MsgField × FieldVal)
  | [], _ => []
  | f :: fs, dv =>
    match extractFirst (fun q => q.1.bucket == f.bucket) dv with
    | some (q, dv2) => (f, q.2) :: unsort fs dv2
    | none => (f, f.ftype.defVal) :: unsort fs dv

/-- Modelled from the spec: payload encoding (spec section 4.2 Encode).
Fields are serialized in wire order; v2 additionally truncates trailing
zero bytes (never below one byte) with extension bytes included in the
pre-truncation image; v1 emits exactly the non-extension payload. -/
def encodeMsg (m : List (MsgField × FieldVal)) (isV2 : Bool) : List Nat :=
  if isV2 then truncV2 (encodePairs (wSort m))
  else encodePairs (wSort (m.filter (fun p => isCore p.1)))

/-- Modelled from the spec: payload decoding (spec section 4.2 Decode).
The payload is zero-extended to the full (v2, including extensions) or
non-extension (v1) size, each wire field is read at its offset, and values
are placed back at their declaration positions. -/
def decodeMsg (fs : List MsgField) (bs : List Nat) (isV2 : Bool) :
    List (MsgField × FieldVal) :=
  if isV2 then unsort fs (decodePairs (wireFields fs) (zeroExtend (fullSize fs) bs))
  else unsort fs (decodePairs (wireFields (coreFields fs)) (zeroExtend (coreSize fs) bs))

/-- Wire representability of a value at its declared field type: scalars fit
the primitive width (automatic for Go's integer types), arrays have the
declared length (automatic for Go's fixed arrays), strings fit the declared
`mavlen` and contain no zero byte. -/
def wfPairB (p : MsgField × FieldVal) : Bool :=
  match p.1.ftype, p.2 with
  | .scalar q, .scalar v => decide (v < 256 ^ q.width)
  | .array q k, .arr vs => vs.length == k && vs.all (fun x => decide (x < 256 ^ q.width))
  | .str k, .str bs => decide (bs.length ≤ k) && bs.all (fun b => b != 0)
  | _, _ => false

/-- Extension fields hold their zero value (what a v1 wire image can carry). -/
def extZeroB (p : MsgField × FieldVal) : Bool :=
  !p.1.ext || (p.2 == p.1.ftype.defVal)

/-- One step of the X.25 CRC-16 (polynomial 0x1021, init 0xFFFF, reflected),
as in the MAVLink checksum. -/
def x25Step (crc b : Nat) : Nat :=
  let t1 := (b % 256) ^^^ (crc % 256)
  let t := (t1 ^^^ (t1 * 16)) % 256
  ((crc / 256) ^^^ (t * 256) ^^^ (t * 8) ^^^ (t / 16)) % 65536

/-- X.25 CRC-16 of a byte list, init 0xFFFF. -/
def x25 (bytes : List Nat) : Nat := bytes.foldl x25Step 0xFFFF

/-- ASCII bytes of a string. -/
def strBytes (s : String) : List Nat := s.data.map Char.toNat

/-- The declared shape of a message: its uppercase name and, for each
non-extension field in wire order, the primitive name, the field name, and
the array length byte if any.  Field values do not occur. -/
def msgShape (m : Msg) : String × List (String × String × List Nat) :=
  (m.name,
    (wireFields (coreFields m.fields)).map
      (fun f => (f.ftype.crcPrim, f.name, f.ftype.crcLenByte)))

/-- Modelled from the spec: CRC-extra from a declared shape (spec section
4.1 step 4): X.25 over the name and a space, then per field the primitive
name, a space, the field name, a space, and the array length byte if any;
the two CRC bytes are folded by XOR. -/
def crcExtraOfShape (s : String × List (String × String × List Nat)) : Nat :=
  let bytes :=
    strBytes (s.1 ++ " ") ++
      (s.2.map (fun t => strBytes (t.1 ++ " " ++ t.2.1 ++ " ") ++ t.2.2)).flatten
  let c := x25 bytes
  (c % 256) ^^^ (c / 256)

/-- CRC-extra byte of a message plan. -/
def crcExtra (m : Msg) : Nat := crcExtraOfShape (msgShape m)

/-- Modelled from the spec: v2 frame serialization (spec section 6 wire
format): magic 0xFD, length, incompat and compat flags (0 when unsigned),
sequence, system id, component id, 3-byte little-endian message id, payload,
then the X.25 CRC over everything after the magic with the CRC-extra folded
in as a trailing pseudo-byte, encoded little-endian. -/
def encodeFrameV2 (seq sysid compid msgid crcE : Nat) (payload : List Nat) : List Nat :=
  let body :=
    [payload.length % 256, 0, 0, seq % 256, sysid % 256, compid % 256,
      msgid % 256, msgid / 256 % 256, msgid / 65536 % 256] ++ payload
  let c := x25 (body ++ [crcE % 256])
  (0xFD :: body) ++ [c % 256, c / 256]

/-- Modelled from the spec: a node encodes a message once with its own
system/component id and sequence counter and pushes the frame to its
channels (spec section 4.6, write_message_all). -/
def writeMessageV2 (sysid compid seq : Nat) (m : Msg)
    (vals : List (MsgField × FieldVal)) : List Nat :=
  encodeFrameV2 seq sysid compid m.id (crcExtra m) (encodeMsg vals true)

/-- A decoded v2 frame (the parts relevant to routing). -/
structure Frame where
  seq : Nat
  sysid : Nat
  compid : Nat
  msgid : Nat
  payload : List Nat
deriving DecidableEq

/-- Modelled from the spec: re-emitting a received frame via
write_frame_except keeps the original source system/component untouched and
only replaces the sequence number with the relaying node's own wrapping
counter (spec section 4.6 routing policy). -/
def reEmit (nodeSeq : Nat) (f : Frame) : Frame :=
  { f with seq := nodeSeq % 256 }

/-- Wire bytes of a frame record. -/
def frameBytes (f : Frame) (crcE : Nat) : List Nat :=
  encodeFrameV2 f.seq f.sysid f.compid f.msgid crcE f.payload

/- Dialect table construction, embedded from src/dialect/decencoder.go.
The per-message builder (msg.NewDecEncoder, not part of the sources) is an
arbitrary parameter `mk`. -/

/-- Lookup in the id table (Go map read). -/
def lookupId {α : Type} (tbl : List (Nat × α)) (i : Nat) : Option α :=
  (tbl.find? (fun e => e.1 == i)).map (fun e => e.2)

/-- The loop of dialect.NewDecEncoder: for each message, fail if its id is
already present, build its plan with `mk` (failing if `mk` fails), insert. -/
def dialectBuild {α : Type} (mk : Msg → Except String α) :
    List Msg → List (Nat × α) → Except String (List (Nat × α))
  | [], tbl => .ok tbl
  | m :: ms, tbl =>
    match lookupId tbl m.id with
    | some _ => .error ("duplicate message with id " ++ toString m.id)
    | none =>
      match mk m with
      | .error e => .error e
      | .ok de => dialectBuild mk ms (tbl ++ [(m.id, de)])

/-- dialect.NewDecEncoder starting from the empty table. -/
def newDialectDE {α : Type} (mk : Msg → Except String α) (msgs : List Msg) :
    Except String (List (Nat × α)) :=
  dialectBuild mk msgs []

/- Signature verification replay state, modelled from the spec (section 3
signature state): per (link id, source system, source component) the last
accepted 48-bit timestamp; incoming frames with a non-greater timestamp are
rejected. -/

/-- Key of the replay table: (link id, source system, source component). -/
abbrev SigKey := Nat × Nat × Nat

def lookupTs (st : List (SigKey × Nat)) (k : SigKey) : Option Nat :=
  (st.find? (fun e => e.1 == k)).map (fun e => e.2)

def updateTs : List (SigKey × Nat) → SigKey → Nat → List (SigKey × Nat)
  | [], k, ts => [(k, ts)]
  | e :: es, k, ts => if e.1 == k then (k, ts) :: es else e :: updateTs es k ts

/-- Modelled from the spec: the monotonic-timestamp check of incoming signed
frames; on acceptance the last-accepted timestamp is recorded. -/
def checkTs (st : List (SigKey × Nat)) (k : SigKey) (ts : Nat) :
    Bool × List (SigKey × Nat) :=
  match lookupTs st k with
  | some last => if ts ≤ last then (false, st) else (true, updateTs st k ts)
  | none => (true, updateTs st k ts)

/- UDP listener multiplexer, embedded from src/udplistener/udplistener.go. -/

/-- Connection index: peer IPv4 octets and port (udpListenerConnIndex). -/
abbrev ConnIdx := (Nat × Nat × Nat × Nat) × Nat

/-- A pseudo-connection (udpListenerConn): its peer address, the queue of
datagrams routed into its read channel, and the consumer-set read deadline
(`none` is Go's zero time, meaning no deadline).  There is no other
per-connection field; in particular no arrival timestamp. -/
structure UConn where
  addr : ConnIdx
  queue : List (List Nat)
  deadline : Option Nat
deriving DecidableEq

/-- newConn: empty read channel, no deadline. -/
def newConnM (i : ConnIdx) : UConn := ⟨i, [], none⟩

/-- Listener state: registry of pseudo-connections, closed flag, published
accept queue, underlying socket state. -/
structure LState where
  conns : List (ConnIdx × UConn)
  closed : Bool
  acceptQueue : List ConnIdx
  socketClosed : Bool
deriving DecidableEq

def lookupConn (cs : List (ConnIdx × UConn)) (i : ConnIdx) : Option UConn :=
  (cs.find? (fun e => e.1 == i)).map (fun e => e.2)

def updateConn : List (ConnIdx × UConn) → ConnIdx → UConn → List (ConnIdx × UConn)
  | [], _, _ => []
  | e :: es, i, c => if e.1 == i then (i, c) :: es else e :: updateConn es i c

def removeConn : List (ConnIdx × UConn) → ConnIdx → List (ConnIdx × UConn)
  | [], _ => []
  | e :: es, i => if e.1 == i then es else e :: removeConn es i

/-- The body of UDPListener.reader for one received datagram: a datagram
from a registered peer is routed into that pseudo-connection's read channel;
from an unknown peer it creates, registers and publishes a new
pseudo-connection — unless the listener is closed, in which case it is
ignored. -/
def readerStep (st : LState) (src : ConnIdx) (data : List Nat) : LState :=
  match lookupConn st.conns src with
  | some c =>
    { st with conns := updateConn st.conns src { c with queue := c.queue ++ [data] } }
  | none =>
    if st.closed then st
    else
      { st with
        conns := st.conns ++ [(src, { newConnM src with queue := [data] })],
        acceptQueue := st.acceptQueue ++ [src] }

/-- UDPListener.Close: idempotent; marks closed and closes the socket only
when the registry is already empty.  It does not touch the registry. -/
def listenerClose (st : LState) : LState :=
  if st.closed then st
  else { st with closed := true, socketClosed := st.socketClosed || st.conns.isEmpty }

/-- udpListenerConn.Close: removes the connection from the registry; the
socket closes when the listener is closed and the registry empties. -/
def connClose (st : LState) (i : ConnIdx) : LState :=
  match lookupConn st.conns i with
  | none => st
  | some _ =>
    let cs := removeConn st.conns i
    { st with conns := cs, socketClosed := st.socketClosed || (st.closed && cs.isEmpty) }

/-- Events driving the listener state. -/
inductive LEvent
  | datagram (src : ConnIdx) (data : List Nat)
  | lclose
  | cclose (i : ConnIdx)

def lstep (st : LState) : LEvent → LState
  | .datagram src d => readerStep st src d
  | .lclose => listenerClose st
  | .cclose i => connClose st i

def lrun (st : LState) (evs : List LEvent) : LState := evs.foldl lstep st

end Gomav

namespace Gomav

/- Concrete messages from src/msg/decencoder_test.go (field names are the
MAVLink wire names the reflector derives from the Go field names and
`mavname` overrides). -/

def hbFields : List MsgField :=
  [⟨"type", .scalar .u8, false⟩,
   ⟨"autopilot", .scalar .u8, false⟩,
   ⟨"base_mode", .scalar .u8, false⟩,
   ⟨"custom_mode", .scalar .u32, false⟩,
   ⟨"system_status", .scalar .u8, false⟩,
   ⟨"mavlink_version", .scalar .u8, false⟩]

def heartbeatMsg : Msg := ⟨"HEARTBEAT", 0, hbFields⟩

def sysStatusFields : List MsgField :=
  [⟨"onboard_control_sensors_present", .scalar .u32, false⟩,
   ⟨"onboard_control_sensors_enabled", .scalar .u32, false⟩,
   ⟨"onboard_control_sensors_health", .scalar .u32, false⟩,
   ⟨"load", .scalar .u16, false⟩,
   ⟨"voltage_battery", .scalar .u16, false⟩,
   ⟨"current_battery", .scalar .i16, false⟩,
   ⟨"battery_remaining", .scalar .i8, false⟩,
   ⟨"drop_rate_comm", .scalar .u16, false⟩,
   ⟨"errors_comm", .scalar .u16, false⟩,
   ⟨"errors_count1", .scalar .u16, false⟩,
   ⟨"errors_count2", .scalar .u16, false⟩,
   ⟨"errors_count3", .scalar .u16, false⟩,
   ⟨"errors_count4", .scalar .u16, false⟩]

def sysStatusMsg : Msg := ⟨"SYS_STATUS", 1, sysStatusFields⟩

def cocFields : List MsgField :=
  [⟨"target_system", .scalar .u8, false⟩,
   ⟨"control_request", .scalar .u8, false⟩,
   ⟨"version", .scalar .u8, false⟩,
   ⟨"passkey", .str 25, false⟩]

def cocMsg : Msg := ⟨"CHANGE_OPERATOR_CONTROL", 5, cocFields⟩

def aqcFields : List MsgField :=
  [⟨"time_usec", .scalar .u64, false⟩,
   ⟨"q", .array .f32 4, false⟩,
   ⟨"rollspeed", .scalar .f32, false⟩,
   ⟨"pitchspeed", .scalar .f32, false⟩,
   ⟨"yawspeed", .scalar .f32, false⟩,
   ⟨"covariance", .array .f32 9, false⟩]

def aqcMsg : Msg := ⟨"ATTITUDE_QUATERNION_COV", 61, aqcFields⟩

def ofFields : List MsgField :=
  [⟨"time_usec", .scalar .u64, false⟩,
   ⟨"sensor_id", .scalar .u8, false⟩,
   ⟨"flow_x", .scalar .i16, false⟩,
   ⟨"flow_y", .scalar .i16, false⟩,
   ⟨"flow_comp_m_x", .scalar .f32, false⟩,
   ⟨"flow_comp_m_y", .scalar .f32, false⟩,
   ⟨"quality", .scalar .u8, false⟩,
   ⟨"ground_distance", .scalar .f32, false⟩,
   ⟨"flow_rate_x", .scalar .f32, true⟩,
   ⟨"flow_rate_y", .scalar .f32, true⟩]

def opticalFlowMsg : Msg := ⟨"OPTICAL_FLOW", 100, ofFields⟩

def playTuneFields : List MsgField :=
  [⟨"target_system", .scalar .u8, false⟩,
   ⟨"target_component", .scalar .u8, false⟩,
   ⟨"tune", .str 30, false⟩,
   ⟨"tune2", .str 200, true⟩]

def playTuneMsg : Msg := ⟨"PLAY_TUNE", 258, playTuneFields⟩

def ahrsFields : List MsgField :=
  [⟨"omegaIx", .scalar .f32, false⟩,
   ⟨"omegaIy", .scalar .f32, false⟩,
   ⟨"omegaIz", .scalar .f32, false⟩,
   ⟨"accel_weight", .scalar .f32, false⟩,
   ⟨"renorm_val", .scalar .f32, false⟩,
   ⟨"error_rp", .scalar .f32, false⟩,
   ⟨"error_yaw", .scalar .f32, false⟩]

def ahrsMsg : Msg := ⟨"AHRS", 163, ahrsFields⟩

end Gomav

namespace Gomav

/- Concrete message values from src/msg/decencoder_test.go and
src/node_test.go.  Float values are written as their IEEE-754 wire images
(1.0f = 0x3F800000 and so on), matching the raw vectors. -/

def one32 : Nat := 0x3F800000

def hbVals1 : List (MsgField × FieldVal) :=
  hbFields.zip [.scalar 1, .scalar 2, .scalar 3, .scalar 6, .scalar 4, .scalar 5]

def hbVals2 : List (MsgField × FieldVal) :=
  hbFields.zip [.scalar 7, .scalar 5, .scalar 4, .scalar 3, .scalar 2, .scalar 1]

def cocVals1 : List (MsgField × FieldVal) :=
  cocFields.zip [.scalar 1, .scalar 1, .scalar 1, .str [0x74, 0x65, 0x73, 0x74, 0x69, 0x6E, 0x67]]

def cocVals2 : List (MsgField × FieldVal) :=
  cocFields.zip [.scalar 0, .scalar 1, .scalar 2, .str [0x74, 0x65, 0x73, 0x74, 0x69, 0x6E, 0x67]]

def ahrsZeroVals : List (MsgField × FieldVal) :=
  ahrsFields.zip (List.replicate 7 (.scalar 0))

def ahrsVals : List (MsgField × FieldVal) :=
  ahrsFields.zip [.scalar one32, .scalar 0x40000000, .scalar 0x40400000,
    .scalar 0x40800000, .scalar 0x40A00000, .scalar 0, .scalar 0]

def ofVals1 : List (MsgField × FieldVal) :=
  ofFields.zip [.scalar 3, .scalar 9, .scalar 7, .scalar 8, .scalar one32,
    .scalar one32, .scalar 0x0A, .scalar one32, .scalar 0, .scalar 0]

def ofRaw1 : List Nat :=
  [3, 0, 0, 0, 0, 0, 0, 0, 0, 0, 0x80, 0x3F, 0, 0, 0x80, 0x3F, 0, 0, 0x80, 0x3F,
    7, 0, 8, 0, 9, 0x0A]

def ofVals2 : List (MsgField × FieldVal) :=
  ofFields.zip [.scalar 3, .scalar 9, .scalar 7, .scalar 8, .scalar one32,
    .scalar one32, .scalar 0x0A, .scalar one32, .scalar one32, .scalar one32]

def ofRaw2 : List Nat := ofRaw1 ++ [0, 0, 0x80, 0x3F, 0, 0, 0x80, 0x3F]

def ptVals : List (MsgField × FieldVal) :=
  playTuneFields.zip [.scalar 1, .scalar 2, .str [0x74, 0x65, 0x73, 0x74, 0x31],
    .str [0x74, 0x65, 0x73, 0x74, 0x32]]

def ptRaw : List Nat :=
  [1, 2, 0x74, 0x65, 0x73, 0x74, 0x31] ++ List.replicate 25 0 ++ [0x74, 0x65, 0x73, 0x74, 0x32]

def ssVals : List (MsgField × FieldVal) :=
  sysStatusFields.zip [.scalar 0x01010101, .scalar 0x01010101, .scalar 0x01010101,
    .scalar 0x0101, .scalar 0x0101, .scalar 0x0101, .scalar 1, .scalar 0x0101,
    .scalar 0x0101, .scalar 0x0101, .scalar 0x0101, .scalar 0x0101, .scalar 0x0101]

def aqcVals : List (MsgField × FieldVal) :=
  aqcFields.zip [.scalar 2, .arr (List.replicate 4 one32), .scalar one32,
    .scalar one32, .scalar one32, .arr (List.replicate 9 one32)]

def aqcRaw : List Nat :=
  [2, 0, 0, 0, 0, 0, 0, 0] ++ (List.replicate 16 [0, 0, 0x80, 0x3F]).flatten

/-- The frame of TestNodeCustom / scenario 1 of spec section 8: heartbeat
{7,5,4,3,2,1} from (sysid 11, compid 1, seq 0) as v2. -/
def expectedHbFrame : List Nat :=
  [253, 9, 0, 0, 0, 11, 1, 0, 0, 0, 3, 0, 0, 0, 7, 5, 4, 2, 1, 159, 218]

/- Concrete states for the UDP-listener claims. -/

def idxA : ConnIdx := ((127, 0, 0, 1), 5600)
def idxB : ConnIdx := ((127, 0, 0, 2), 5601)

/-- A listener with one idle registered pseudo-connection at `idxA` whose
consumer set a read deadline. -/
def stIdle : LState := ⟨[(idxA, ⟨idxA, [], some 7⟩)], false, [idxA], false⟩

/-- A closed listener with one registered pseudo-connection at `idxA`. -/
def stClosed : LState := ⟨[(idxA, ⟨idxA, [], none⟩)], true, [idxA], false⟩

/-- Concrete replay-check state: link 0, source (10,1), last accepted ts 100. -/
def sigKey0 : SigKey := (0, 10, 1)
def sigSt0 : List (SigKey × Nat) := [(sigKey0, 100)]

/-- The original sender's frame of TestNodeRouting: heartbeat {7,5,4,3,2,1}
from (sysid 10, compid 1). -/
def routedFrame : Frame := ⟨0, 10, 1, 0, encodeMsg hbVals2 true⟩

end Gomav

namespace Gomav

/-- Width class represented by each core bucket. -/
def widthOfBucket : Nat → Nat
  | 0 => 8
  | 1 => 4
  | 2 => 2
  | _ => 1

/-- udpListenerConn.Read, resolved at the moment the select fires: a queued
datagram is handed out (and the scratch-buffer rendezvous acknowledged);
with no queued datagram the read yields no data — with a deadline set it
returns the timeout error once the deadline timer fires. -/
def connRead (c : UConn) : Option (List Nat) × UConn :=
  match c.queue with
  | d :: rest => (some d, { c with queue := rest })
  | [] => (none, c)

/-- Relation used to state sortedness of the wire order: no non-extension
field follows an extension field, and among non-extension fields the
primitive base widths never increase. -/
def wireLe (a b : MsgField) : Prop :=
  b.ext = false → a.ext = false ∧ b.ftype.baseWidth ≤ a.ftype.baseWidth

end Gomav

namespace Gomav

/- Sanity checks: the modelled codec reproduces every wire vector of
src/msg/decencoder_test.go (casesMsgs, TestEncode and TestDecode). -/

theorem sanity_hb_v1 :
    encodeMsg hbVals1 false = [6, 0, 0, 0, 1, 2, 3, 4, 5] ∧
      decodeMsg hbFields [6, 0, 0, 0, 1, 2, 3, 4, 5] false = hbVals1 := by
  decide

theorem sanity_sysstatus_v1 :
    encodeMsg ssVals false = List.replicate 31 1 ∧
      decodeMsg sysStatusFields (List.replicate 31 1) false = ssVals := by
  decide

theorem sanity_coc_v1 :
    encodeMsg cocVals1 false =
      [1, 1, 1, 0x74, 0x65, 0x73, 0x74, 0x69, 0x6E, 0x67] ++ List.replicate 18 0 ∧
      decodeMsg cocFields
        ([1, 1, 1, 0x74, 0x65, 0x73, 0x74, 0x69, 0x6E, 0x67] ++ List.replicate 18 0) false =
        cocVals1 := by
  decide

theorem sanity_coc_v2 :
    encodeMsg cocVals2 true = [0, 1, 2, 0x74, 0x65, 0x73, 0x74, 0x69, 0x6E, 0x67] ∧
      decodeMsg cocFields [0, 1, 2, 0x74, 0x65, 0x73, 0x74, 0x69, 0x6E, 0x67] true = cocVals2 := by
  decide

theorem sanity_aqc_v1 :
    encodeMsg aqcVals false = aqcRaw ∧ decodeMsg aqcFields aqcRaw false = aqcVals := by
  decide

theorem sanity_ahrs_empty_v2 :
    encodeMsg ahrsZeroVals true = [0] ∧ decodeMsg ahrsFields [0] true = ahrsZeroVals := by
  decide

theorem sanity_ahrs_v2 :
    encodeMsg ahrsVals true =
      [0, 0, 0x80, 0x3F, 0, 0, 0, 0x40, 0, 0, 0x40, 0x40, 0, 0, 0x80, 0x40, 0, 0, 0xA0, 0x40] ∧
      decodeMsg ahrsFields
        [0, 0, 0x80, 0x3F, 0, 0, 0, 0x40, 0, 0, 0x40, 0x40, 0, 0, 0x80, 0x40, 0, 0, 0xA0, 0x40]
        true = ahrsVals := by
  decide

theorem sanity_opticalflow_v1 :
    encodeMsg ofVals1 false = ofRaw1 ∧ decodeMsg ofFields ofRaw1 false = ofVals1 := by
  decide

theorem sanity_opticalflow_v2 :
    encodeMsg ofVals2 true = ofRaw2 ∧ decodeMsg ofFields ofRaw2 true = ofVals2 := by
  decide

theorem sanity_playtune_v2 :
    encodeMsg ptVals true = ptRaw ∧ decodeMsg playTuneFields ptRaw true = ptVals := by
  decide

/-- C2: encoding MessageHeartbeat{Type:7, Autopilot:5, BaseMode:4,
CustomMode:3, SystemStatus:2, MavlinkVersion:1} as a v2 frame from a node
with system id 11, component id 1 and sequence number 0 produces exactly
FD 09 00 00 00 0B 01 00 00 00 03 00 00 00 07 05 04 02 01 9F DA, as in
TestNodeCustom. -/
theorem heartbeat_frame_bytes :
    writeMessageV2 11 1 0 heartbeatMsg hbVals2 = expectedHbFrame := by
  decide

/-- C3: the CRC-extra byte of a plan is a function of the declared shape
only — the uppercase message name and, per non-extension field in wire
order, the primitive name, field name and array length — computed as the
X.25 CRC-16 folded by XOR of its two bytes; no field value enters the
computation (the shape mentions none).  In particular MessageHeartbeat's
plan has CRC-extra 50, and the other six dialect messages of casesCRC get
their expected values. -/
theorem crc_extra_shape_only :
    (∀ m : Msg, crcExtra m = crcExtraOfShape (msgShape m)) ∧
      crcExtra heartbeatMsg = 50 ∧ crcExtra sysStatusMsg = 124 ∧
      crcExtra cocMsg = 217 ∧ crcExtra aqcMsg = 167 ∧
      crcExtra opticalFlowMsg = 175 ∧ crcExtra playTuneMsg = 187 ∧
      crcExtra ahrsMsg = 127 :=
  ⟨fun _ => rfl, by decide, by decide, by decide, by decide, by decide, by decide, by decide⟩

end Gomav

namespace Gomav

theorem uleBytes_length (w v : Nat) : (uleBytes w v).length = w := by
  induction w generalizing v with
  | zero => rfl
  | succ w ih => simp [uleBytes, ih]

theorem uleVal_uleBytes (w v : Nat) (h : v < 256 ^ w) : uleVal (uleBytes w v) = v := by
  induction w generalizing v with
  | zero =>
    have : v = 0 := Nat.lt_one_iff.mp (by simpa using h)
    simp [this, uleBytes, uleVal]
  | succ w ih =>
    have hlt : v / 256 < 256 ^ w := by
      rw [Nat.div_lt_iff_lt_mul (by norm_num : 0 < 256)]
      calc v < 256 ^ (w + 1) := h
        _ = 256 ^ w * 256 := by ring
    simp [uleBytes, uleVal, ih (v / 256) hlt, Nat.mod_add_div]

theorem flatten_map_uleBytes_length (w : Nat) (vs : List Nat) :
    ((vs.map (uleBytes w)).flatten).length = w * vs.length := by
  induction vs with
  | nil => simp
  | cons v vs ih => simp [ih, uleBytes_length, Nat.mul_succ, Nat.add_comm]

theorem decodeArr_flatten (w : Nat) (vs : List Nat) (rest : List Nat)
    (h : ∀ x ∈ vs, x < 256 ^ w) :
    decodeArr w vs.length ((vs.map (uleBytes w)).flatten ++ rest) = vs := by
  induction vs generalizing rest with
  | nil => rfl
  | cons v vs ih =>
    have hv : v < 256 ^ w := h v (by simp)
    have hrest : ∀ x ∈ vs, x < 256 ^ w := fun x hx => h x (by simp [hx])
    simp only [List.map_cons, List.flatten_cons, List.length_cons, decodeArr,
      List.append_assoc]
    rw [List.take_left' (uleBytes_length w v), List.drop_left' (uleBytes_length w v)]
    rw [uleVal_uleBytes w v hv, ih rest hrest]

theorem takeWhile_ne_zero_append (bs : List Nat) (k : Nat) (h : ∀ b ∈ bs, b ≠ 0) :
    (bs ++ List.replicate k 0).takeWhile (fun b => b != 0) = bs := by
  induction bs with
  | nil =>
    cases k with
    | zero => rfl
    | succ k => simp [List.replicate_succ, List.takeWhile_cons]
  | cons b bs ih =>
    have hb : b ≠ 0 := h b (by simp)
    have hbs : ∀ x ∈ bs, x ≠ 0 := fun x hx => h x (by simp [hx])
    simp [List.takeWhile_cons, hb, ih hbs]

theorem encodeField_length (f : MsgField) (v : FieldVal) (h : wfPairB (f, v) = true) :
    (encodeField f.ftype v).length = f.ftype.wireLen := by
  unfold wfPairB at h
  cases hf : f.ftype <;> cases hv : v <;> simp [hf, hv] at h
  case scalar.scalar p w =>
    simp [encodeField, FType.wireLen, uleBytes_length]
  case array.arr p n vs =>
    show ((vs.map (uleBytes p.width)).flatten).length = p.width * n
    rw [flatten_map_uleBytes_length, h.1]
  case str.str n bs =>
    show (bs ++ List.replicate (n - bs.length) 0).length = n
    have : bs.length ≤ n := h.1
    simp
    omega

theorem decodeField_encodeField (f : MsgField) (v : FieldVal) (rest : List Nat)
    (h : wfPairB (f, v) = true) :
    decodeField f.ftype ((encodeField f.ftype v ++ rest).take f.ftype.wireLen) = v := by
  unfold wfPairB at h
  cases hf : f.ftype <;> cases hv : v <;> simp [hf, hv] at h
  case scalar.scalar p w =>
    simp only [encodeField, FType.wireLen, decodeField]
    rw [List.take_left' (uleBytes_length _ _), uleVal_uleBytes _ _ h]
  case array.arr p n vs =>
    simp only [encodeField, FType.wireLen, decodeField]
    obtain ⟨hlen, helem⟩ := h
    have hl : ((vs.map (uleBytes p.width)).flatten).length = p.width * n := by
      rw [flatten_map_uleBytes_length, hlen]
    rw [List.take_left' hl]
    have := decodeArr_flatten p.width vs [] helem
    rw [List.append_nil] at this
    rw [← hlen, this]
  case str.str n bs =>
    simp only [encodeField, FType.wireLen, decodeField]
    obtain ⟨hlen, hne⟩ := h
    have hl : (bs ++ List.replicate (n - bs.length) 0).length = n := by
      simp; omega
    rw [List.take_left' hl, takeWhile_ne_zero_append _ _ hne]

end Gomav

namespace Gomav

theorem decodePairs_encodePairs (ps : List (MsgField × FieldVal)) (rest : List Nat)
    (h : ∀ p ∈ ps, wfPairB p = true) :
    decodePairs (ps.map Prod.fst) (encodePairs ps ++ rest) = ps := by
  induction ps generalizing rest with
  | nil => rfl
  | cons p tl ih =>
    obtain ⟨f, v⟩ := p
    have hp : wfPairB (f, v) = true := h _ (by simp)
    have htl : ∀ q ∈ tl, wfPairB q = true := fun q hq => h q (by simp [hq])
    have henc : encodePairs ((f, v) :: tl) = encodeField f.ftype v ++ encodePairs tl := by
      simp [encodePairs]
    simp only [List.map_cons, henc, List.append_assoc, decodePairs]
    rw [decodeField_encodeField f v _ hp]
    rw [List.drop_left' (encodeField_length f v hp), ih rest htl]

theorem bucket_lt_five (f : MsgField) : f.bucket < 5 := by
  unfold MsgField.bucket
  split
  · omega
  · split <;> omega

theorem mem_bsort {α : Type} (key : α → Nat) (l : List α) (x : α)
    (h : x ∈ bsort key l) : x ∈ l := by
  simp only [bsort, List.mem_append, List.mem_filter] at h
  rcases h with ((((h | h) | h) | h) | h) <;> exact h.1

theorem count_filter_neg {α : Type} [DecidableEq α] (p : α → Bool) (l : List α) (a : α)
    (h : p a = false) : List.count a (l.filter p) = 0 := by
  rw [List.count_eq_zero]
  intro hmem
  have hpa := (List.mem_filter.mp hmem).2
  rw [h] at hpa
  cases hpa

theorem count_bsort_filter {α : Type} [DecidableEq α] (key : α → Nat) (l : List α)
    (a : α) (k : Nat) :
    List.count a (l.filter (fun x => key x == k)) =
      if key a = k then List.count a l else 0 := by
  by_cases h : key a = k
  · rw [if_pos h, List.count_filter]
    simp [h]
  · rw [if_neg h, count_filter_neg]
    simp [h]

theorem bsort_perm {α : Type} [DecidableEq α] (key : α → Nat) (l : List α)
    (hk : ∀ x, key x < 5) : (bsort key l).Perm l := by
  rw [List.perm_iff_count]
  intro a
  have ha : key a < 5 := hk a
  simp only [bsort, List.count_append, count_bsort_filter]
  have hc : key a = 0 ∨ key a = 1 ∨ key a = 2 ∨ key a = 3 ∨ key a = 4 := by omega
  rcases hc with h | h | h | h | h <;> simp [h]

end Gomav

namespace Gomav

theorem map_filter_comp {α β : Type} (g : α → β) (p : β → Bool) (l : List α) :
    (l.filter (fun x => p (g x))).map g = (l.map g).filter p := by
  induction l with
  | nil => rfl
  | cons x xs ih => by_cases h : p (g x) <;> simp [List.filter_cons, h, ih]

theorem map_filter_key {α β : Type} (key : β → Nat) (g : α → β) (k : Nat) (l : List α) :
    (l.filter (fun x => key (g x) == k)).map g = (l.map g).filter (fun y => key y == k) := by
  induction l with
  | nil => rfl
  | cons x xs ih => by_cases h : key (g x) = k <;> simp [List.filter_cons, h, ih]

theorem map_bsort {α β : Type} (key : β → Nat) (g : α → β) (l : List α) :
    (bsort (fun x => key (g x)) l).map g = bsort key (l.map g) := by
  simp only [bsort, List.map_append, map_filter_key]

theorem encodePairs_cons (p : MsgField × FieldVal) (tl : List (MsgField × FieldVal)) :
    encodePairs (p :: tl) = encodeField p.1.ftype p.2 ++ encodePairs tl := by
  simp [encodePairs]

theorem encodePairs_length (ps : List (MsgField × FieldVal))
    (h : ∀ p ∈ ps, wfPairB p = true) :
    (encodePairs ps).length = fullSize (ps.map Prod.fst) := by
  induction ps with
  | nil => rfl
  | cons p tl ih =>
    have hp : wfPairB p = true := h p (by simp)
    have htl : ∀ q ∈ tl, wfPairB q = true := fun q hq => h q (by simp [hq])
    rw [encodePairs_cons]
    simp only [List.map_cons, fullSize, List.sum_cons, List.length_append]
    rw [encodeField_length p.1 p.2 hp, ih htl]
    rfl

theorem takeWhile_all_eq (p : Nat → Bool) (l : List Nat) (x : Nat)
    (h : x ∈ l.takeWhile p) : p x = true := by
  induction l with
  | nil => cases h
  | cons a tl ih =>
    rw [List.takeWhile_cons] at h
    by_cases hp : p a
    · simp only [hp, if_true] at h
      rcases List.mem_cons.mp h with h | h
      · rw [h]; exact hp
      · exact ih h
    · simp [hp] at h

theorem dropTrailing_decomp (l : List Nat) :
    l = dropTrailingZeros l ++
      List.replicate (l.length - (dropTrailingZeros l).length) 0 := by
  have hsplit := List.takeWhile_append_dropWhile (fun b : Nat => b == 0) l.reverse
  have hlen : (List.takeWhile (fun b : Nat => b == 0) l.reverse).length +
      (List.dropWhile (fun b : Nat => b == 0) l.reverse).length = l.length := by
    have hc := congrArg List.length hsplit
    rwa [List.length_append, List.length_reverse] at hc
  have h2 : l = (List.dropWhile (fun b : Nat => b == 0) l.reverse).reverse ++
      (List.takeWhile (fun b : Nat => b == 0) l.reverse).reverse := by
    conv_lhs => rw [← List.reverse_reverse l, ← hsplit]
    rw [List.reverse_append]
  have hrep : (List.takeWhile (fun b : Nat => b == 0) l.reverse).reverse =
      List.replicate
        (List.takeWhile (fun b : Nat => b == 0) l.reverse).reverse.length 0 := by
    apply List.eq_replicate_of_mem
    intro b hb
    simpa using takeWhile_all_eq _ _ _ (List.mem_reverse.mp hb)
  conv_lhs => rw [h2]
  unfold dropTrailingZeros
  congr 1
  rw [hrep]
  congr 1
  simp only [List.length_reverse]
  omega

theorem zeroExtend_truncV2 (l : List Nat) :
    ∃ rest, zeroExtend l.length (truncV2 l) = l ++ rest := by
  by_cases h : dropTrailingZeros l = []
  · have hl : l = List.replicate l.length 0 := by
      have hd := dropTrailing_decomp l
      rw [h] at hd
      simpa using hd
    cases hn : l.length with
    | zero =>
      have hnil : l = [] := List.length_eq_zero.mp hn
      refine ⟨[0], ?_⟩
      subst hnil
      decide
    | succ n =>
      refine ⟨[], ?_⟩
      rw [truncV2, if_pos h, List.append_nil, zeroExtend]
      conv_rhs => rw [hl]
      rw [hn]
      simp [List.replicate_succ]
  · refine ⟨[], ?_⟩
    rw [truncV2, if_neg h, List.append_nil, zeroExtend, ← dropTrailing_decomp]

end Gomav

namespace Gomav

theorem extractFirst_cons {α : Type} (p : α → Bool) (x : α) (xs : List α) :
    extractFirst p (x :: xs) =
      if p x then some (x, xs)
      else (extractFirst p xs).map (fun q => (q.1, x :: q.2)) := by
  by_cases h : p x
  · simp [extractFirst, h]
  · cases hE : extractFirst p xs with
    | none => simp [extractFirst, h, hE]
    | some q =>
      obtain ⟨y, ys⟩ := q
      simp [extractFirst, h, hE]

theorem extractFirst_none {α : Type} (p : α → Bool) (l : List α)
    (h : ∀ x ∈ l, p x = false) : extractFirst p l = none := by
  induction l with
  | nil => rfl
  | cons x xs ih =>
    have hx := h x (by simp)
    rw [extractFirst_cons, if_neg (by simp [hx]), ih (fun y hy => h y (by simp [hy]))]
    rfl

theorem extractFirst_append_none {α : Type} (p : α → Bool) (xs ys : List α)
    (h : ∀ x ∈ xs, p x = false) :
    extractFirst p (xs ++ ys) = (extractFirst p ys).map (fun q => (q.1, xs ++ q.2)) := by
  induction xs with
  | nil =>
    rw [List.nil_append]
    cases hE : extractFirst p ys with
    | none => simp
    | some q => simp
  | cons x xs ih =>
    have hx := h x (by simp)
    rw [List.cons_append, extractFirst_cons, if_neg (by simp [hx]),
      ih (fun y hy => h y (by simp [hy]))]
    cases extractFirst p ys with
    | none => rfl
    | some q => rfl

theorem extractFirst_parts {α : Type} (p : α → Bool) (A B : List α) (x : α)
    (hA : ∀ y ∈ A, p y = false) (hx : p x = true) :
    extractFirst p (A ++ x :: B) = some (x, A ++ B) := by
  rw [extractFirst_append_none p A _ hA, extractFirst_cons, if_pos hx]
  rfl

theorem extractFirst_bsort {α : Type} (key : α → Nat) (x : α) (tl : List α)
    (hk : key x < 5) :
    extractFirst (fun q => key q == key x) (bsort key (x :: tl)) =
      some (x, bsort key tl) := by
  have hmem : ∀ k : Nat, k ≠ key x → ∀ y ∈ tl.filter (fun q => key q == k),
      (key y == key x) = false := by
    intro k hkx y hy
    have hyk : key y = k := by simpa using (List.mem_filter.mp hy).2
    simp [hyk, hkx]
  have hx : (key x == key x) = true := by simp
  have hc : key x = 0 ∨ key x = 1 ∨ key x = 2 ∨ key x = 3 ∨ key x = 4 := by omega
  rcases hc with h | h | h | h | h
  · have hform : bsort key (x :: tl) =
        x :: ((tl.filter (fun q => key q == 0)) ++ ((tl.filter (fun q => key q == 1)) ++
          ((tl.filter (fun q => key q == 2)) ++ ((tl.filter (fun q => key q == 3)) ++
            (tl.filter (fun q => key q == 4)))))) := by
      simp only [bsort, List.filter_cons]
      simp [h, List.append_assoc]
    rw [hform, extractFirst_cons, if_pos hx]
    simp [bsort, List.append_assoc]
  · have hform : bsort key (x :: tl) =
        (tl.filter (fun q => key q == 0)) ++
          x :: ((tl.filter (fun q => key q == 1)) ++ ((tl.filter (fun q => key q == 2)) ++
            ((tl.filter (fun q => key q == 3)) ++ (tl.filter (fun q => key q == 4))))) := by
      simp only [bsort, List.filter_cons]
      simp [h, List.append_assoc]
    rw [hform, extractFirst_parts _ _ _ _ (hmem 0 (by omega)) hx]
    simp [bsort, List.append_assoc]
  · have hform : bsort key (x :: tl) =
        ((tl.filter (fun q => key q == 0)) ++ (tl.filter (fun q => key q == 1))) ++
          x :: ((tl.filter (fun q => key q == 2)) ++ ((tl.filter (fun q => key q == 3)) ++
            (tl.filter (fun q => key q == 4)))) := by
      simp only [bsort, List.filter_cons]
      simp [h, List.append_assoc]
    have hA : ∀ y ∈ (tl.filter (fun q => key q == 0)) ++ (tl.filter (fun q => key q == 1)),
        (key y == key x) = false := by
      intro y hy
      rcases List.mem_append.mp hy with hy | hy
      · exact hmem 0 (by omega) y hy
      · exact hmem 1 (by omega) y hy
    rw [hform, extractFirst_parts _ _ _ _ hA hx]
    simp [bsort, List.append_assoc]
  · have hform : bsort key (x :: tl) =
        ((tl.filter (fun q => key q == 0)) ++ ((tl.filter (fun q => key q == 1)) ++
          (tl.filter (fun q => key q == 2)))) ++
          x :: ((tl.filter (fun q => key q == 3)) ++ (tl.filter (fun q => key q == 4))) := by
      simp only [bsort, List.filter_cons]
      simp [h, List.append_assoc]
    have hA : ∀ y ∈ (tl.filter (fun q => key q == 0)) ++ ((tl.filter (fun q => key q == 1)) ++
        (tl.filter (fun q => key q == 2))), (key y == key x) = false := by
      intro y hy
      rcases List.mem_append.mp hy with hy | hy
      · exact hmem 0 (by omega) y hy
      rcases List.mem_append.mp hy with hy | hy
      · exact hmem 1 (by omega) y hy
      · exact hmem 2 (by omega) y hy
    rw [hform, extractFirst_parts _ _ _ _ hA hx]
    simp [bsort, List.append_assoc]
  · have hform : bsort key (x :: tl) =
        ((tl.filter (fun q => key q == 0)) ++ ((tl.filter (fun q => key q == 1)) ++
          ((tl.filter (fun q => key q == 2)) ++ (tl.filter (fun q => key q == 3))))) ++
          x :: (tl.filter (fun q => key q == 4)) := by
      simp only [bsort, List.filter_cons]
      simp [h, List.append_assoc]
    have hA : ∀ y ∈ (tl.filter (fun q => key q == 0)) ++ ((tl.filter (fun q => key q == 1)) ++
        ((tl.filter (fun q => key q == 2)) ++ (tl.filter (fun q => key q == 3)))),
        (key y == key x) = false := by
      intro y hy
      rcases List.mem_append.mp hy with hy | hy
      · exact hmem 0 (by omega) y hy
      rcases List.mem_append.mp hy with hy | hy
      · exact hmem 1 (by omega) y hy
      rcases List.mem_append.mp hy with hy | hy
      · exact hmem 2 (by omega) y hy
      · exact hmem 3 (by omega) y hy
    rw [hform, extractFirst_parts _ _ _ _ hA hx]
    simp [bsort, List.append_assoc]

end Gomav

namespace Gomav

theorem bucket_ext (f : MsgField) (h : f.ext = true) : f.bucket = 4 := by
  simp [MsgField.bucket, h]

theorem bucket_core_lt_four (f : MsgField) (h : f.ext = false) : f.bucket < 4 := by
  unfold MsgField.bucket
  rw [if_neg (by simp [h])]
  split <;> omega

theorem unsort_wSort (ps : List (MsgField × FieldVal)) :
    unsort (ps.map Prod.fst) (wSort ps) = ps := by
  induction ps with
  | nil => rfl
  | cons p tl ih =>
    have hstep := extractFirst_bsort (fun q : MsgField × FieldVal => q.1.bucket) p tl
      (bucket_lt_five p.1)
    simp only [List.map_cons, unsort, wSort]
    simp only [hstep]
    rw [show wSort tl = bsort (fun q : MsgField × FieldVal => q.1.bucket) tl from rfl] at ih
    simp [ih]

theorem unsort_wSort_core (ps : List (MsgField × FieldVal))
    (h : ∀ p ∈ ps, p.1.ext = true → p.2 = p.1.ftype.defVal) :
    unsort (ps.map Prod.fst) (wSort (ps.filter (fun p => isCore p.1))) = ps := by
  induction ps with
  | nil => rfl
  | cons p tl ih =>
    have htl : ∀ q ∈ tl, q.1.ext = true → q.2 = q.1.ftype.defVal :=
      fun q hq => h q (by simp [hq])
    by_cases hext : p.1.ext
    · have hfilter : (p :: tl).filter (fun q => isCore q.1) =
          tl.filter (fun q => isCore q.1) := by
        simp [List.filter_cons, isCore, hext]
      have hb : p.1.bucket = 4 := bucket_ext p.1 hext
      have hnone : extractFirst (fun q : MsgField × FieldVal => q.1.bucket == p.1.bucket)
          (wSort (tl.filter (fun q => isCore q.1))) = none := by
        apply extractFirst_none
        intro y hy
        have hymem := mem_bsort _ _ _ hy
        have hycore : isCore y.1 = true := (List.mem_filter.mp hymem).2
        have hyext : y.1.ext = false := by simpa [isCore] using hycore
        have := bucket_core_lt_four y.1 hyext
        simp only [hb]
        simp
        omega
      have hval : p.2 = p.1.ftype.defVal := h p (by simp) hext
      simp only [List.map_cons, unsort, hfilter]
      simp only [hnone]
      rw [ih htl]
      rw [← hval]
    · have hfilter : (p :: tl).filter (fun q => isCore q.1) =
          p :: tl.filter (fun q => isCore q.1) := by
        simp [List.filter_cons, isCore, hext]
      have hstep := extractFirst_bsort (fun q : MsgField × FieldVal => q.1.bucket) p
        (tl.filter (fun q => isCore q.1)) (bucket_lt_five p.1)
      simp only [List.map_cons, unsort, wSort, hfilter]
      simp only [hstep]
      rw [show wSort (tl.filter (fun q => isCore q.1)) =
        bsort (fun q : MsgField × FieldVal => q.1.bucket)
          (tl.filter (fun q => isCore q.1)) from rfl] at ih
      simp [ih htl]

end Gomav

namespace Gomav

/-- C1 (amended): for every message whose field values are wire-representable
(scalars within their primitive range and arrays of declared length — both
automatic for Go's types — and strings that fit the declared length with no
zero byte), decoding the v2 encoding yields the message back; the same holds
under v1 provided every extension field holds its zero value, since the v1
wire format does not carry extension fields. -/
theorem decode_encode_roundtrip (m : List (MsgField × FieldVal))
    (hwf : m.all wfPairB = true) :
    decodeMsg (m.map Prod.fst) (encodeMsg m true) true = m ∧
      (m.all extZeroB = true →
        decodeMsg (m.map Prod.fst) (encodeMsg m false) false = m) := by
  have hwf' : ∀ p ∈ m, wfPairB p = true := List.all_eq_true.mp hwf
  have hwfS : ∀ p ∈ wSort m, wfPairB p = true := fun p hp => hwf' p (mem_bsort _ _ _ hp)
  constructor
  · show unsort (m.map Prod.fst)
      (decodePairs (wireFields (m.map Prod.fst))
        (zeroExtend (fullSize (m.map Prod.fst)) (truncV2 (encodePairs (wSort m))))) = m
    have hlen : (encodePairs (wSort m)).length = fullSize (m.map Prod.fst) := by
      rw [encodePairs_length _ hwfS]
      have hperm : ((wSort m).map Prod.fst).Perm (m.map Prod.fst) :=
        (bsort_perm _ m (fun x => bucket_lt_five x.1)).map Prod.fst
      unfold fullSize
      exact (hperm.map (fun f => f.ftype.wireLen)).sum_eq
    have hfields : wireFields (m.map Prod.fst) = (wSort m).map Prod.fst :=
      (map_bsort MsgField.bucket Prod.fst m).symm
    rw [← hlen]
    obtain ⟨rest, hre⟩ := zeroExtend_truncV2 (encodePairs (wSort m))
    rw [hre, hfields, decodePairs_encodePairs _ rest hwfS, unsort_wSort]
  · intro hz
    have hz' : ∀ p ∈ m, p.1.ext = true → p.2 = p.1.ftype.defVal := by
      intro p hp hext
      have hb := List.all_eq_true.mp hz p hp
      simp only [extZeroB, hext, Bool.not_true, Bool.false_or] at hb
      exact eq_of_beq hb
    show unsort (m.map Prod.fst)
      (decodePairs (wireFields (coreFields (m.map Prod.fst)))
        (zeroExtend (coreSize (m.map Prod.fst))
          (encodePairs (wSort (m.filter (fun p => isCore p.1)))))) = m
    have hcf : coreFields (m.map Prod.fst) = (m.filter (fun p => isCore p.1)).map Prod.fst := by
      unfold coreFields
      exact (map_filter_comp Prod.fst isCore m).symm
    have hfields2 : wireFields ((m.filter (fun p => isCore p.1)).map Prod.fst) =
        (wSort (m.filter (fun p => isCore p.1))).map Prod.fst :=
      (map_bsort MsgField.bucket Prod.fst (m.filter (fun p => isCore p.1))).symm
    have hwfSc : ∀ p ∈ wSort (m.filter (fun q => isCore q.1)), wfPairB p = true := by
      intro p hp
      have := mem_bsort _ _ _ hp
      exact hwf' p (List.mem_filter.mp this).1
    rw [hcf, hfields2, zeroExtend]
    rw [decodePairs_encodePairs _ _ hwfSc]
    exact unsort_wSort_core m hz'

end Gomav

namespace Gomav

/-- C1 counterexample: the round-trip equation fails on the code as literally
stated: MessageOpticalFlow with extension values FlowRateX = FlowRateY = 1.0
encoded under v1 (which cannot carry extension fields) decodes back with the
extension fields zeroed, not to the original message. -/
theorem roundtrip_fails_v1_extensions :
    decodeMsg (ofVals2.map Prod.fst) (encodeMsg ofVals2 false) false ≠ ofVals2 ∧
      decodeMsg (ofVals2.map Prod.fst) (encodeMsg ofVals2 false) false = ofVals1 := by
  constructor
  · decide
  · decide

/-- Witness for the amended round trip at the concrete heartbeat message of
the tests, under both wire versions. -/
theorem decode_encode_roundtrip_witness :
    hbVals2.all wfPairB = true ∧ hbVals2.all extZeroB = true ∧
      decodeMsg (hbVals2.map Prod.fst) (encodeMsg hbVals2 true) true = hbVals2 ∧
      decodeMsg (hbVals2.map Prod.fst) (encodeMsg hbVals2 false) false = hbVals2 :=
  ⟨by decide, by decide, (decode_encode_roundtrip hbVals2 (by decide)).1,
    (decode_encode_roundtrip hbVals2 (by decide)).2 (by decide)⟩

theorem dropWhile_all (p : Nat → Bool) (l : List Nat) (h : ∀ x ∈ l, p x = true) :
    l.dropWhile p = [] := by
  induction l with
  | nil => rfl
  | cons x xs ih =>
    rw [List.dropWhile_cons, if_pos (by simp [h x (by simp)])]
    exact ih (fun y hy => h y (by simp [hy]))

/-- C5: v2 encoding is the trailing-zero truncation of the full serialized
payload (extension bytes included in the pre-truncation image), never
truncated below one byte; an all-zero payload image encodes to the single
byte 0x00. -/
theorem encode_v2_truncation (m : List (MsgField × FieldVal)) :
    encodeMsg m true = truncV2 (encodePairs (wSort m)) ∧
      1 ≤ (encodeMsg m true).length ∧
      ((∀ b ∈ encodePairs (wSort m), b = 0) → encodeMsg m true = [0]) := by
  refine ⟨rfl, ?_, ?_⟩
  · show 1 ≤ (truncV2 (encodePairs (wSort m))).length
    unfold truncV2
    split
    · simp
    · next h => exact List.length_pos.mpr h
  · intro hz
    have hdrop : dropTrailingZeros (encodePairs (wSort m)) = [] := by
      unfold dropTrailingZeros
      rw [dropWhile_all]
      · rfl
      · intro x hx
        simp [hz x (List.mem_reverse.mp hx)]
    show truncV2 (encodePairs (wSort m)) = [0]
    rw [truncV2, if_pos hdrop]

/-- Witness for the truncation claim at the all-zero MessageAhrs of the
tests: its 28-byte zero image encodes to the single byte 0x00. -/
theorem encode_v2_truncation_witness :
    (∀ b ∈ encodePairs (wSort ahrsZeroVals), b = 0) ∧ encodeMsg ahrsZeroVals true = [0] :=
  ⟨by decide, (encode_v2_truncation ahrsZeroVals).2.2 (by decide)⟩

end Gomav

namespace Gomav

theorem baseWidth_mem (t : FType) :
    t.baseWidth = 1 ∨ t.baseWidth = 2 ∨ t.baseWidth = 4 ∨ t.baseWidth = 8 := by
  cases t with
  | scalar p => cases p <;> simp [FType.baseWidth, Prim.width]
  | array p n => cases p <;> simp [FType.baseWidth, Prim.width]
  | str n => simp [FType.baseWidth]

theorem baseWidth_widthOfBucket (f : MsgField) (h : f.ext = false) :
    f.ftype.baseWidth = widthOfBucket f.bucket := by
  unfold MsgField.bucket
  rw [if_neg (by simp [h])]
  rcases baseWidth_mem f.ftype with hw | hw | hw | hw <;> rw [hw] <;> rfl

theorem widthOfBucket_eq (k : Nat) :
    widthOfBucket k = if k = 0 then 8 else if k = 1 then 4 else if k = 2 then 2 else 1 := by
  match k with
  | 0 => rfl
  | 1 => rfl
  | 2 => rfl
  | n + 3 => rfl

theorem widthOfBucket_antitone {i j : Nat} (h : i ≤ j) :
    widthOfBucket j ≤ widthOfBucket i := by
  rw [widthOfBucket_eq i, widthOfBucket_eq j]
  split_ifs <;> omega

theorem wireLe_of_bucket_le (a b : MsgField) (hab : a.bucket ≤ b.bucket) :
    wireLe a b := by
  intro hbcore
  have hb4 : b.bucket < 4 := bucket_core_lt_four b hbcore
  have ha4 : a.bucket < 4 := lt_of_le_of_lt hab hb4
  have hacore : a.ext = false := by
    cases hae : a.ext
    · rfl
    · rw [bucket_ext a hae] at ha4
      omega
  refine ⟨hacore, ?_⟩
  rw [baseWidth_widthOfBucket a hacore, baseWidth_widthOfBucket b hbcore]
  exact widthOfBucket_antitone hab

theorem bucket_of_mem_filter (fs : List MsgField) (k : Nat) (f : MsgField)
    (h : f ∈ fs.filter (fun x => x.bucket == k)) : f.bucket = k := by
  simpa using (List.mem_filter.mp h).2

theorem pairwise_wireLe_wireFields (fs : List MsgField) :
    List.Pairwise wireLe (wireFields fs) := by
  have hblock : ∀ k, List.Pairwise wireLe (fs.filter (fun x => x.bucket == k)) := by
    intro k
    apply List.pairwise_of_forall_mem_list
    intro a ha b hb
    exact wireLe_of_bucket_le a b
      (by rw [bucket_of_mem_filter fs k a ha, bucket_of_mem_filter fs k b hb])
  have hcross : ∀ (i : Nat) (a : MsgField), a ∈ fs.filter (fun x => x.bucket == i) →
      ∀ (j : Nat) (b : MsgField), b ∈ fs.filter (fun x => x.bucket == j) → i ≤ j →
        wireLe a b := by
    intro i a ha j b hb hij
    apply wireLe_of_bucket_le
    rw [bucket_of_mem_filter fs i a ha, bucket_of_mem_filter fs j b hb]
    exact hij
  unfold wireFields bsort
  simp only [List.append_assoc]
  rw [List.pairwise_append]
  refine ⟨hblock 0, ?_, ?_⟩
  · rw [List.pairwise_append]
    refine ⟨hblock 1, ?_, ?_⟩
    · rw [List.pairwise_append]
      refine ⟨hblock 2, ?_, ?_⟩
      · rw [List.pairwise_append]
        refine ⟨hblock 3, hblock 4, ?_⟩
        · intro a ha b hb
          exact hcross 3 a ha 4 b hb (by omega)
      · intro a ha b hb
        rcases List.mem_append.mp hb with hb | hb
        · exact hcross 2 a ha 3 b hb (by omega)
        · exact hcross 2 a ha 4 b hb (by omega)
    · intro a ha b hb
      rcases List.mem_append.mp hb with hb | hb
      · exact hcross 1 a ha 2 b hb (by omega)
      rcases List.mem_append.mp hb with hb | hb
      · exact hcross 1 a ha 3 b hb (by omega)
      · exact hcross 1 a ha 4 b hb (by omega)
  · intro a ha b hb
    rcases List.mem_append.mp hb with hb | hb
    · exact hcross 0 a ha 1 b hb (by omega)
    rcases List.mem_append.mp hb with hb | hb
    · exact hcross 0 a ha 2 b hb (by omega)
    rcases List.mem_append.mp hb with hb | hb
    · exact hcross 0 a ha 3 b hb (by omega)
    · exact hcross 0 a ha 4 b hb (by omega)

end Gomav

namespace Gomav

theorem bsort_filter_stable {α : Type} (key : α → Nat) (l : List α) (k : Nat)
    (hk : ∀ x, key x < 5) :
    (bsort key l).filter (fun x => key x == k) = l.filter (fun x => key x == k) := by
  have hone : ∀ j, j ≠ k → l.filter (fun a => (key a == k) && (key a == j)) = [] := by
    intro j hjk
    rw [List.filter_eq_nil_iff]
    intro a ha
    simp only [Bool.and_eq_true, beq_iff_eq, not_and]
    intro h1 h2
    exact hjk (h1.symm.trans h2).symm
  have hself : l.filter (fun a => (key a == k) && (key a == k)) =
      l.filter (fun a => key a == k) :=
    List.filter_congr (by intro a ha; rw [Bool.and_self])
  simp only [bsort, List.filter_append, List.filter_filter]
  by_cases hk5 : k < 5
  · have hc : k = 0 ∨ k = 1 ∨ k = 2 ∨ k = 3 ∨ k = 4 := by omega
    rcases hc with h | h | h | h | h <;> subst h
    · rw [hself, hone 1 (by omega), hone 2 (by omega), hone 3 (by omega),
        hone 4 (by omega)]
      simp
    · rw [hself, hone 0 (by omega), hone 2 (by omega), hone 3 (by omega),
        hone 4 (by omega)]
      simp
    · rw [hself, hone 0 (by omega), hone 1 (by omega), hone 3 (by omega),
        hone 4 (by omega)]
      simp
    · rw [hself, hone 0 (by omega), hone 1 (by omega), hone 2 (by omega),
        hone 4 (by omega)]
      simp
    · rw [hself, hone 0 (by omega), hone 1 (by omega), hone 2 (by omega),
        hone 3 (by omega)]
      simp
  · rw [hone 0 (by omega), hone 1 (by omega), hone 2 (by omega), hone 3 (by omega),
      hone 4 (by omega)]
    have : l.filter (fun a => key a == k) = [] := by
      rw [List.filter_eq_nil_iff]
      intro a ha
      have := hk a
      simp only [beq_iff_eq]
      omega
    simp [this]

/-- C4: the wire order of a plan is exactly the stable sort the spec
describes: it is a permutation of the declared fields (first conjunct); no
non-extension field follows an extension field and primitive base widths
never increase among non-extension fields (second conjunct); the sort
bucket of a field is 4 exactly for extensions, and for the others it
determines the base width 8 > 4 > 2 > 1 in order (third and fourth
conjuncts); the subsequence of each bucket keeps declaration order, which
is stability with ties in declaration order and extensions appended in
declaration order (fifth conjunct); value sorting is field sorting (sixth);
every encode and every decode goes through this order (seventh and eighth);
and on the test dialect the orders are the concrete ones observed in the
wire vectors (last two conjuncts). -/
theorem wire_order_stable_sort :
    (∀ fs : List MsgField, (wireFields fs).Perm fs) ∧
      (∀ fs : List MsgField, List.Pairwise wireLe (wireFields fs)) ∧
      (∀ f : MsgField, (f.ext = true → f.bucket = 4) ∧
        (f.ext = false → f.bucket < 4 ∧ f.ftype.baseWidth = widthOfBucket f.bucket)) ∧
      (∀ i j : Nat, i ≤ j → widthOfBucket j ≤ widthOfBucket i) ∧
      (∀ (fs : List MsgField) (k : Nat),
        (wireFields fs).filter (fun f => f.bucket == k) =
          fs.filter (fun f => f.bucket == k)) ∧
      (∀ ps : List (MsgField × FieldVal),
        (wSort ps).map Prod.fst = wireFields (ps.map Prod.fst)) ∧
      (∀ m : List (MsgField × FieldVal),
        encodeMsg m true = truncV2 (encodePairs (wSort m)) ∧
          encodeMsg m false = encodePairs (wSort (m.filter (fun p => isCore p.1)))) ∧
      (∀ (fs : List MsgField) (bs : List Nat),
        decodeMsg fs bs true =
            unsort fs (decodePairs (wireFields fs) (zeroExtend (fullSize fs) bs)) ∧
          decodeMsg fs bs false =
            unsort fs (decodePairs (wireFields (coreFields fs))
              (zeroExtend (coreSize fs) bs))) ∧
      wireFields hbFields =
        [⟨"custom_mode", .scalar .u32, false⟩, ⟨"type", .scalar .u8, false⟩,
          ⟨"autopilot", .scalar .u8, false⟩, ⟨"base_mode", .scalar .u8, false⟩,
          ⟨"system_status", .scalar .u8, false⟩, ⟨"mavlink_version", .scalar .u8, false⟩] ∧
      wireFields ofFields =
        [⟨"time_usec", .scalar .u64, false⟩, ⟨"flow_comp_m_x", .scalar .f32, false⟩,
          ⟨"flow_comp_m_y", .scalar .f32, false⟩, ⟨"ground_distance", .scalar .f32, false⟩,
          ⟨"flow_x", .scalar .i16, false⟩, ⟨"flow_y", .scalar .i16, false⟩,
          ⟨"sensor_id", .scalar .u8, false⟩, ⟨"quality", .scalar .u8, false⟩,
          ⟨"flow_rate_x", .scalar .f32, true⟩, ⟨"flow_rate_y", .scalar .f32, true⟩] := by
  refine ⟨?_, pairwise_wireLe_wireFields, ?_, ?_, ?_, ?_, ?_, ?_, by decide, by decide⟩
  · intro fs
    exact bsort_perm MsgField.bucket fs bucket_lt_five
  · intro f
    exact ⟨bucket_ext f, fun h => ⟨bucket_core_lt_four f h, baseWidth_widthOfBucket f h⟩⟩
  · intro i j h
    exact widthOfBucket_antitone h
  · intro fs k
    exact bsort_filter_stable MsgField.bucket fs k bucket_lt_five
  · intro ps
    exact map_bsort MsgField.bucket Prod.fst ps
  · intro m
    exact ⟨rfl, rfl⟩
  · intro fs bs
    exact ⟨rfl, rfl⟩

/-- Witness instantiating the wire-order theorem at concrete inputs: an
extension field lands in the last bucket, and the width order between
buckets 0 and 3 is 8 versus 1. -/
theorem wire_order_stable_sort_witness :
    (MsgField.mk "flow_rate_x" (.scalar .f32) true).ext = true ∧
      (MsgField.mk "flow_rate_x" (.scalar .f32) true).bucket = 4 ∧
      (0 : Nat) ≤ 3 ∧ widthOfBucket 3 ≤ widthOfBucket 0 :=
  ⟨rfl, (wire_order_stable_sort.2.2.1 (MsgField.mk "flow_rate_x" (.scalar .f32) true)).1 rfl,
    by omega, wire_order_stable_sort.2.2.2.1 0 3 (by omega)⟩

end Gomav

namespace Gomav

theorem lookupId_cons {α : Type} (e : Nat × α) (es : List (Nat × α)) (i : Nat) :
    lookupId (e :: es) i = if e.1 = i then some e.2 else lookupId es i := by
  by_cases he : e.1 = i
  · simp [lookupId, List.find?_cons_of_pos, he]
  · rw [lookupId, List.find?_cons_of_neg _ (by simp [he]), if_neg he]
    rfl

theorem lookupId_append_left {α : Type} (tbl ext : List (Nat × α)) (i : Nat) (a : α)
    (h : lookupId tbl i = some a) : lookupId (tbl ++ ext) i = some a := by
  induction tbl with
  | nil => rw [lookupId] at h; cases h
  | cons e es ih =>
    rw [lookupId_cons] at h
    rw [List.cons_append, lookupId_cons]
    by_cases he : e.1 = i
    · rwa [if_pos he] at h ⊢
    · rw [if_neg he] at h ⊢
      exact ih h

theorem lookupId_mem {α : Type} (tbl : List (Nat × α)) (i : Nat)
    (h : i ∈ tbl.map Prod.fst) : ∃ a, lookupId tbl i = some a := by
  induction tbl with
  | nil => cases h
  | cons e es ih =>
    rw [lookupId_cons]
    by_cases he : e.1 = i
    · exact ⟨e.2, by rw [if_pos he]⟩
    · rw [if_neg he]
      rw [List.map_cons] at h
      rcases List.mem_cons.mp h with hh | hh
      · exact absurd hh.symm he
      · exact ih hh

theorem lookupId_none_not_mem {α : Type} (tbl : List (Nat × α)) (i : Nat)
    (h : lookupId tbl i = none) : i ∉ tbl.map Prod.fst := by
  intro hmem
  obtain ⟨a, ha⟩ := lookupId_mem tbl i hmem
  rw [h] at ha
  cases ha

theorem dialectBuild_extends {α : Type} (mk : Msg → Except String α) (ms : List Msg)
    (tbl tbl2 : List (Nat × α)) (h : dialectBuild mk ms tbl = .ok tbl2) :
    ∃ ext, tbl2 = tbl ++ ext := by
  induction ms generalizing tbl with
  | nil =>
    rw [dialectBuild] at h
    exact ⟨[], by cases h; simp⟩
  | cons m ms ih =>
    rw [dialectBuild] at h
    cases hL : lookupId tbl m.id with
    | some p => rw [hL] at h; cases h
    | none =>
      rw [hL] at h
      cases hmk : mk m with
      | error e => rw [hmk] at h; cases h
      | ok de =>
        rw [hmk] at h
        obtain ⟨ext, hext⟩ := ih (tbl ++ [(m.id, de)]) h
        exact ⟨[(m.id, de)] ++ ext, by rw [hext, List.append_assoc]⟩

theorem lookupId_append_fresh {α : Type} (tbl : List (Nat × α)) (i : Nat) (a : α)
    (h : lookupId tbl i = none) : lookupId (tbl ++ [(i, a)]) i = some a := by
  induction tbl with
  | nil => rw [List.nil_append, lookupId_cons, if_pos rfl]
  | cons e es ih =>
    rw [lookupId_cons] at h
    by_cases he : e.1 = i
    · rw [if_pos he] at h; cases h
    · rw [if_neg he] at h
      rw [List.cons_append, lookupId_cons, if_neg he]
      exact ih h

theorem dialectBuild_ok {α : Type} (mk : Msg → Except String α) (ms : List Msg)
    (tbl tbl2 : List (Nat × α)) (hnd : (tbl.map Prod.fst).Nodup)
    (h : dialectBuild mk ms tbl = .ok tbl2) :
    (tbl2.map Prod.fst).Nodup ∧ (ms.map Msg.id).Nodup ∧
      (∀ m ∈ ms, ∃ p, lookupId tbl2 m.id = some p) ∧
      (∀ i ∈ ms.map Msg.id, i ∉ tbl.map Prod.fst) := by
  induction ms generalizing tbl with
  | nil =>
    rw [dialectBuild] at h
    cases h
    exact ⟨hnd, List.nodup_nil, by simp, by simp⟩
  | cons m ms ih =>
    rw [dialectBuild] at h
    cases hL : lookupId tbl m.id with
    | some p => rw [hL] at h; cases h
    | none =>
      rw [hL] at h
      cases hmk : mk m with
      | error e => rw [hmk] at h; cases h
      | ok de =>
        rw [hmk] at h
        have hnotmem : m.id ∉ tbl.map Prod.fst := lookupId_none_not_mem tbl m.id hL
        have hnd2 : ((tbl ++ [(m.id, de)]).map Prod.fst).Nodup := by
          rw [List.map_append]
          simp only [List.map_cons, List.map_nil]
          rw [List.nodup_append]
          exact ⟨hnd, List.nodup_singleton _, by simpa using hnotmem⟩
        obtain ⟨hnd3, hms, hlook, havoid⟩ := ih (tbl ++ [(m.id, de)]) hnd2 h
        obtain ⟨ext, hext⟩ := dialectBuild_extends mk ms (tbl ++ [(m.id, de)]) tbl2 h
        have hmlook : ∃ p, lookupId tbl2 m.id = some p := by
          refine ⟨de, ?_⟩
          rw [hext]
          exact lookupId_append_left _ ext m.id de (lookupId_append_fresh tbl m.id de hL)
        refine ⟨hnd3, ?_, ?_, ?_⟩
        · rw [List.map_cons, List.nodup_cons]
          refine ⟨?_, hms⟩
          intro hmem
          exact havoid m.id hmem (by simp)
        · intro m2 hm2
          rcases List.mem_cons.mp hm2 with hh | hh
          · rw [hh]; exact hmlook
          · exact hlook m2 hh
        · intro i hi
          rw [List.map_cons] at hi
          rcases List.mem_cons.mp hi with hh | hh
          · rw [hh]; exact hnotmem
          · intro hmem
            exact havoid i hh (by simp [hmem])

theorem dialectBuild_error_of_dup {α : Type} (mk : Msg → Except String α) (ms : List Msg)
    (tbl : List (Nat × α)) (hnd : (tbl.map Prod.fst).Nodup)
    (hdup : ¬ ((tbl.map Prod.fst) ++ ms.map Msg.id).Nodup) :
    ∃ e, dialectBuild mk ms tbl = .error e := by
  induction ms generalizing tbl with
  | nil =>
    exact absurd (by simpa using hnd) hdup
  | cons m ms ih =>
    cases hL : lookupId tbl m.id with
    | some p =>
      exact ⟨"duplicate message with id " ++ toString m.id, by rw [dialectBuild, hL]⟩
    | none =>
      cases hmk : mk m with
      | error e => exact ⟨e, by rw [dialectBuild, hL, hmk]⟩
      | ok de =>
        have hnotmem : m.id ∉ tbl.map Prod.fst := lookupId_none_not_mem tbl m.id hL
        have hnd2 : ((tbl ++ [(m.id, de)]).map Prod.fst).Nodup := by
          rw [List.map_append]
          simp only [List.map_cons, List.map_nil]
          rw [List.nodup_append]
          exact ⟨hnd, List.nodup_singleton _, by simpa using hnotmem⟩
        have hdup2 : ¬ (((tbl ++ [(m.id, de)]).map Prod.fst) ++ ms.map Msg.id).Nodup := by
          intro hcon
          apply hdup
          rw [List.map_append] at hcon
          simp only [List.map_cons, List.map_nil] at hcon
          rw [List.append_assoc, List.singleton_append] at hcon
          exact hcon
        obtain ⟨e, he⟩ := ih (tbl ++ [(m.id, de)]) hnd2 hdup2
        refine ⟨e, ?_⟩
        rw [dialectBuild, hL, hmk]
        exact he

end Gomav

namespace Gomav

/-- C6: dialect.NewDecEncoder fails with an error whenever two messages of
the dialect declare the same message id — regardless of how the per-message
builder behaves — and on success the table's keys are free of duplicates,
the declared ids were pairwise distinct, and every message's id is mapped
to a plan; with unique keys the map sends each id to exactly one plan. -/
theorem dialect_unique_ids {α : Type} (mk : Msg → Except String α) (msgs : List Msg) :
    (¬ (msgs.map Msg.id).Nodup → ∃ e, newDialectDE mk msgs = .error e) ∧
      (∀ tbl, newDialectDE mk msgs = .ok tbl →
        (tbl.map Prod.fst).Nodup ∧ (msgs.map Msg.id).Nodup ∧
          ∀ m ∈ msgs, ∃ p, lookupId tbl m.id = some p) := by
  constructor
  · intro hdup
    apply dialectBuild_error_of_dup mk msgs [] List.nodup_nil
    simpa using hdup
  · intro tbl h
    obtain ⟨h1, h2, h3, _⟩ := dialectBuild_ok mk msgs [] tbl List.nodup_nil h
    exact ⟨h1, h2, h3⟩

/-- Witness for the dialect-table claim: a dialect declaring MessageHeartbeat
twice (both id 0) is rejected, and the singleton dialect builds a table
mapping id 0 to its plan. -/
theorem dialect_unique_ids_witness :
    ¬ (([heartbeatMsg, heartbeatMsg].map Msg.id).Nodup) ∧
      (∃ e, newDialectDE (fun m => Except.ok m.fields) [heartbeatMsg, heartbeatMsg] =
        .error e) ∧
      (([(0, hbFields)].map Prod.fst).Nodup ∧
        (([heartbeatMsg].map Msg.id).Nodup) ∧
        ∀ m ∈ [heartbeatMsg], ∃ p, lookupId [(0, hbFields)] m.id = some p) :=
  ⟨by decide,
    (dialect_unique_ids (fun m => Except.ok m.fields) [heartbeatMsg, heartbeatMsg]).1
      (by decide),
    (dialect_unique_ids (fun m => Except.ok m.fields) [heartbeatMsg]).2 [(0, hbFields)] rfl⟩

/-- C7: re-emitting a received frame through write_frame_except preserves the
original sender's source system and component ids and replaces only the
sequence number with the relayer's own counter; on the wire, bytes 5 and 6
of the re-emitted v2 frame still carry the original source, and byte 4
carries the relayer's sequence.  At the concrete frames of TestNodeRouting,
the router (sysid 11) re-emits the frame of node 1 (sysid 10, compid 1) and
the receiver observes source (10, 1), not 11. -/
theorem reemit_preserves_source :
    (∀ (nodeSeq : Nat) (f : Frame),
      (reEmit nodeSeq f).sysid = f.sysid ∧ (reEmit nodeSeq f).compid = f.compid ∧
        (reEmit nodeSeq f).msgid = f.msgid ∧ (reEmit nodeSeq f).payload = f.payload ∧
        (reEmit nodeSeq f).seq = nodeSeq % 256) ∧
      (∀ (nodeSeq : Nat) (f : Frame) (crcE : Nat), ∃ rest,
        frameBytes (reEmit nodeSeq f) crcE =
          [0xFD, f.payload.length % 256, 0, 0, nodeSeq % 256, f.sysid % 256,
            f.compid % 256] ++ rest) ∧
      ((frameBytes (reEmit 57 routedFrame) (crcExtra heartbeatMsg)).take 7 =
          [0xFD, 9, 0, 0, 57, 10, 1] ∧
        routedFrame.sysid = 10 ∧ routedFrame.sysid ≠ 11 ∧ routedFrame.compid = 1) := by
  refine ⟨?_, ?_, by decide, by decide, by decide, by decide⟩
  · intro nodeSeq f
    exact ⟨rfl, rfl, rfl, rfl, rfl⟩
  · intro nodeSeq f crcE
    have hmm : nodeSeq % 256 % 256 = nodeSeq % 256 := Nat.mod_mod_of_dvd nodeSeq dvd_rfl
    refine ⟨[f.msgid % 256, f.msgid / 256 % 256, f.msgid / 65536 % 256] ++ f.payload ++
      [x25 ((([f.payload.length % 256, 0, 0, nodeSeq % 256, f.sysid % 256, f.compid % 256,
          f.msgid % 256, f.msgid / 256 % 256, f.msgid / 65536 % 256] ++ f.payload) ++
          [crcE % 256])) % 256,
        x25 ((([f.payload.length % 256, 0, 0, nodeSeq % 256, f.sysid % 256, f.compid % 256,
          f.msgid % 256, f.msgid / 256 % 256, f.msgid / 65536 % 256] ++ f.payload) ++
          [crcE % 256])) / 256], ?_⟩
    rw [frameBytes, encodeFrameV2]
    simp [reEmit, hmm, List.append_assoc]

theorem lookupTs_updateTs (st : List (SigKey × Nat)) (k : SigKey) (ts : Nat) :
    lookupTs (updateTs st k ts) k = some ts := by
  induction st with
  | nil =>
    rw [updateTs, lookupTs, List.find?_cons_of_pos _ (by simp)]
    rfl
  | cons e es ih =>
    rw [updateTs]
    by_cases he : e.1 = k
    · rw [if_pos (by simp [he]), lookupTs, List.find?_cons_of_pos _ (by simp)]
      rfl
    · rw [if_neg (by simp [he]), lookupTs, List.find?_cons_of_neg _ (by simp [he])]
      exact ih

/-- C9: the incoming-signature replay rule: a signed frame whose 48-bit
timestamp is not greater than the last accepted timestamp for the same
(link id, source system, source component) tuple is rejected, and an
accepted frame records its timestamp, so the byte-identical frame (same
tuple, same timestamp) is never accepted twice. -/
theorem signature_replay_rejected (st : List (SigKey × Nat)) (k : SigKey) (ts : Nat) :
    (∀ last, lookupTs st k = some last → ts ≤ last → (checkTs st k ts).1 = false) ∧
      ((checkTs st k ts).1 = true → (checkTs (checkTs st k ts).2 k ts).1 = false) := by
  constructor
  · intro last hlook hle
    simp only [checkTs, hlook]
    rw [if_pos hle]
  · intro hacc
    have hupd : (checkTs st k ts).2 = updateTs st k ts := by
      simp only [checkTs] at hacc ⊢
      cases hlook : lookupTs st k with
      | some last =>
        simp only [hlook] at hacc ⊢
        by_cases hle : ts ≤ last
        · rw [if_pos hle] at hacc; cases hacc
        · rw [if_neg hle]
      | none =>
        simp only [hlook]
    rw [hupd]
    simp only [checkTs, lookupTs_updateTs]
    rw [if_pos (Nat.le_refl ts)]

/-- Witness for the replay rule: with last accepted timestamp 100 for
link 0, source (10, 1), a frame stamped 50 is rejected, and after a frame
stamped 200 is accepted, replaying the identical frame is rejected. -/
theorem signature_replay_rejected_witness :
    lookupTs sigSt0 sigKey0 = some 100 ∧ (50 : Nat) ≤ 100 ∧
      (checkTs sigSt0 sigKey0 50).1 = false ∧
      (checkTs sigSt0 sigKey0 200).1 = true ∧
      (checkTs (checkTs sigSt0 sigKey0 200).2 sigKey0 200).1 = false :=
  ⟨rfl, by omega, (signature_replay_rejected sigSt0 sigKey0 50).1 100 rfl (by omega),
    by decide, (signature_replay_rejected sigSt0 sigKey0 200).2 (by decide)⟩

end Gomav

namespace Gomav

theorem lookupConn_cons (e : ConnIdx × UConn) (es : List (ConnIdx × UConn)) (i : ConnIdx) :
    lookupConn (e :: es) i = if e.1 = i then some e.2 else lookupConn es i := by
  by_cases he : e.1 = i
  · simp [lookupConn, List.find?_cons_of_pos, he]
  · rw [lookupConn, List.find?_cons_of_neg _ (by simp [he]), if_neg he]
    rfl

theorem lookupConn_not_mem_none (cs : List (ConnIdx × UConn)) (i : ConnIdx)
    (h : i ∉ cs.map Prod.fst) : lookupConn cs i = none := by
  induction cs with
  | nil => rfl
  | cons e es ih =>
    rw [List.map_cons] at h
    rw [lookupConn_cons, if_neg (fun he => h (by simp [he]))]
    exact ih (fun hm => h (by simp [hm]))

theorem lookupConn_append_left (cs ext : List (ConnIdx × UConn)) (i : ConnIdx) (c : UConn)
    (h : lookupConn cs i = some c) : lookupConn (cs ++ ext) i = some c := by
  induction cs with
  | nil => rw [lookupConn] at h; cases h
  | cons e es ih =>
    rw [lookupConn_cons] at h
    rw [List.cons_append, lookupConn_cons]
    by_cases he : e.1 = i
    · rwa [if_pos he] at h ⊢
    · rw [if_neg he] at h ⊢
      exact ih h

theorem lookupConn_updateConn (cs : List (ConnIdx × UConn)) (i : ConnIdx) (c c0 : UConn)
    (h : lookupConn cs i = some c0) : lookupConn (updateConn cs i c) i = some c := by
  induction cs with
  | nil => rw [lookupConn] at h; cases h
  | cons e es ih =>
    rw [updateConn]
    rw [lookupConn_cons] at h
    by_cases he : e.1 = i
    · rw [if_pos (by simp [he]), lookupConn_cons, if_pos rfl]
    · rw [if_neg (by simp [he]), lookupConn_cons, if_neg he]
      rw [if_neg he] at h
      exact ih h

theorem lookupConn_updateConn_ne (cs : List (ConnIdx × UConn)) (i j : ConnIdx) (c : UConn)
    (hne : i ≠ j) : lookupConn (updateConn cs j c) i = lookupConn cs i := by
  induction cs with
  | nil => rfl
  | cons e es ih =>
    rw [updateConn]
    by_cases he : e.1 = j
    · rw [if_pos (by simp [he]), lookupConn_cons, lookupConn_cons,
        if_neg (fun hj => hne (hj.symm)), if_neg (by rw [he]; exact fun hj => hne hj.symm)]
    · rw [if_neg (by simp [he]), lookupConn_cons, lookupConn_cons]
      by_cases hei : e.1 = i
      · rw [if_pos hei, if_pos hei]
      · rw [if_neg hei, if_neg hei]
        exact ih

theorem lookupConn_removeConn (cs : List (ConnIdx × UConn)) (i : ConnIdx)
    (hnd : (cs.map Prod.fst).Nodup) : lookupConn (removeConn cs i) i = none := by
  induction cs with
  | nil => rfl
  | cons e es ih =>
    rw [List.map_cons, List.nodup_cons] at hnd
    rw [removeConn]
    by_cases he : e.1 = i
    · rw [if_pos (by simp [he])]
      apply lookupConn_not_mem_none
      rw [← he]
      exact hnd.1
    · rw [if_neg (by simp [he]), lookupConn_cons, if_neg he]
      exact ih hnd.2

/-- C10: after UDPListener.Close, a datagram arriving from a peer with no
registered pseudo-connection is silently dropped — the whole listener state
is unchanged: no pseudo-connection is created, nothing is published on the
accept queue and the registry is untouched.  A datagram from a peer whose
pseudo-connection still exists is routed into that connection's read
channel exactly as before the close. -/
theorem closed_listener_drops_new_peers (st : LState) (src : ConnIdx) (d : List Nat) :
    (st.closed = true → lookupConn st.conns src = none → readerStep st src d = st) ∧
      (∀ c, lookupConn st.conns src = some c →
        readerStep st src d =
            { st with conns := updateConn st.conns src { c with queue := c.queue ++ [d] } } ∧
          (readerStep st src d).acceptQueue = st.acceptQueue ∧
          lookupConn (readerStep st src d).conns src =
            some { c with queue := c.queue ++ [d] }) := by
  constructor
  · intro hcl hnone
    simp [readerStep, hnone, hcl]
  · intro c hsome
    refine ⟨by simp [readerStep, hsome], by simp [readerStep, hsome], ?_⟩
    simp only [readerStep, hsome]
    exact lookupConn_updateConn st.conns src _ c hsome

/-- Witness for the closed-listener claim at a concrete closed listener:
the unknown peer's datagram leaves the state untouched, the known peer's
datagram still reaches its pseudo-connection. -/
theorem closed_listener_drops_new_peers_witness :
    stClosed.closed = true ∧ lookupConn stClosed.conns idxB = none ∧
      readerStep stClosed idxB [5] = stClosed ∧
      lookupConn stClosed.conns idxA = some ⟨idxA, [], none⟩ ∧
      lookupConn (readerStep stClosed idxA [5]).conns idxA = some ⟨idxA, [[5]], none⟩ :=
  ⟨rfl, by decide, (closed_listener_drops_new_peers stClosed idxB [5]).1 rfl (by decide),
    by decide,
    ((closed_listener_drops_new_peers stClosed idxA [5]).2 ⟨idxA, [], none⟩ (by decide)).2.2⟩

/-- C8 counterexample: in the listener embedded from
src/udplistener/udplistener.go, a pseudo-connection record carries no
last-seen timestamp and the listener has no sweeper.  Concretely: the idle
pseudo-connection at idxA (whose consumer-set read deadline 7 is its only
temporal field) survives, byte-identical, an arbitrary stretch of listener
activity — another peer's datagrams and the listener's own Close — so no
sweeper evicts it; and when a datagram does arrive for it, only its read
queue changes while the deadline field keeps its old value 7, so no
last-seen timestamp is updated on datagram arrival. -/
theorem no_idle_sweeper_counterexample :
    lookupConn (lrun stIdle [.datagram idxB [1], .lclose, .datagram idxB [2]]).conns idxA =
        some ⟨idxA, [], some 7⟩ ∧
      lookupConn (readerStep stIdle idxA [9]).conns idxA = some ⟨idxA, [[9]], some 7⟩ := by
  constructor
  · decide
  · decide

/-- C8 (amended): idle handling in the UDP listener works through read
deadlines and consumer-driven closes, not a last-seen timestamp with a
sweeper: the reader routes datagrams without ever evicting a
pseudo-connection or touching its deadline (first two conjuncts), the
listener's own Close leaves the registry untouched (third), a
pseudo-connection leaves the registry exactly when its Close is called
(fourth), and a Read on a connection with no queued datagram returns no
data — with a deadline set it surfaces the timeout error that lets the
consumer close the idle connection (fifth). -/
theorem udp_idle_eviction_mechanism (st : LState) (src i : ConnIdx) (d : List Nat)
    (c : UConn) :
    (lookupConn st.conns i = some c →
      ∃ c2, lookupConn (readerStep st src d).conns i = some c2 ∧
        c2.addr = c.addr ∧ c2.deadline = c.deadline ∧
        (c2.queue = c.queue ∨ c2.queue = c.queue ++ [d])) ∧
      ((listenerClose st).conns = st.conns) ∧
      ((st.conns.map Prod.fst).Nodup → lookupConn (connClose st i).conns i = none) ∧
      (c.queue = [] → connRead c = (none, c)) := by
  refine ⟨?_, ?_, ?_, ?_⟩
  · intro hsome
    by_cases his : i = src
    · subst his
      cases hsrc : lookupConn st.conns i with
      | some c0 =>
        rw [hsrc] at hsome
        have hc : c0 = c := by injection hsome
        refine ⟨{ c with queue := c.queue ++ [d] }, ?_, rfl, rfl, Or.inr rfl⟩
        simp only [readerStep, hsrc]
        rw [← hc]
        exact lookupConn_updateConn st.conns i _ c0 hsrc
      | none => rw [hsrc] at hsome; cases hsome
    · cases hsrc : lookupConn st.conns src with
      | some c0 =>
        refine ⟨c, ?_, rfl, rfl, Or.inl rfl⟩
        simp only [readerStep, hsrc]
        rw [lookupConn_updateConn_ne st.conns i src _ his]
        exact hsome
      | none =>
        refine ⟨c, ?_, rfl, rfl, Or.inl rfl⟩
        simp only [readerStep, hsrc]
        by_cases hcl : st.closed
        · rw [if_pos hcl]
          exact hsome
        · rw [if_neg hcl]
          exact lookupConn_append_left st.conns _ i c hsome
  · rw [listenerClose]
    by_cases hcl : st.closed
    · rw [if_pos hcl]
    · rw [if_neg hcl]
  · intro hnd
    rw [connClose]
    cases hl : lookupConn st.conns i with
    | none => exact hl
    | some c0 => exact lookupConn_removeConn st.conns i hnd
  · intro hq
    rw [connRead, hq]

/-- Witness for the amended idle-eviction mechanism at the concrete idle
listener state: the idle connection survives unrelated reader activity
with its deadline intact, the listener close leaves the registry alone,
closing the connection evicts it, and reading it with an empty queue
yields no data (hence the deadline timeout). -/
theorem udp_idle_eviction_mechanism_witness :
    lookupConn stIdle.conns idxA = some ⟨idxA, [], some 7⟩ ∧
      (∃ c2, lookupConn (readerStep stIdle idxB [1]).conns idxA = some c2 ∧
        c2.addr = (⟨idxA, [], some 7⟩ : UConn).addr ∧
        c2.deadline = (⟨idxA, [], some 7⟩ : UConn).deadline ∧
        (c2.queue = (⟨idxA, [], some 7⟩ : UConn).queue ∨
          c2.queue = (⟨idxA, [], some 7⟩ : UConn).queue ++ [[1]])) ∧
      (listenerClose stIdle).conns = stIdle.conns ∧
      lookupConn (connClose stIdle idxA).conns idxA = none ∧
      connRead ⟨idxA, [], some 7⟩ = (none, ⟨idxA, [], some 7⟩) :=
  ⟨by decide,
    (udp_idle_eviction_mechanism stIdle idxB idxA [1] ⟨idxA, [], some 7⟩).1 (by decide),
    (udp_idle_eviction_mechanism stIdle idxB idxA [1] ⟨idxA, [], some 7⟩).2.1,
    (udp_idle_eviction_mechanism stIdle idxB idxA [1] ⟨idxA, [], some 7⟩).2.2.1 (by decide),
    (udp_idle_eviction_mechanism stIdle idxB idxA [1] ⟨idxA, [], some 7⟩).2.2.2 rfl⟩

end Gomav

namespace Gomav

/-- Witness instantiating the re-emission theorem at the routed frame of
TestNodeRouting with relayer sequence 5. -/
theorem reemit_preserves_source_witness :
    (reEmit 5 routedFrame).sysid = 10 ∧ (reEmit 5 routedFrame).seq = 5 :=
  ⟨(reemit_preserves_source.1 5 routedFrame).1.trans (by decide),
    (reemit_preserves_source.1 5 routedFrame).2.2.2.2.trans (by decide)⟩

end Gomav
